import Mathlib

/-!
Verification of the mirror-benchmarking and configuration-commit program
(src/main.rs).  The program probes each mirror SAMPLES times, keeps a
mirror only when every sample succeeded, averages the latencies, ranks
results by (average latency, jitter), repoints a symlink at the winner and
rewrites the apt sources file.

Modelling conventions:
- a Rust `Duration` is its total nanosecond count, a `Nat`; `Duration`
  division by an integer is truncating division on total nanoseconds
  (exactly what `Duration::checked_div` computes) and subtraction only
  occurs as max - min, which never underflows;
- file contents are `List Char`, so that the semantics of Rust
  `str::lines` (splitting at LF, stripping a CR that precedes an LF,
  ignoring a final empty segment) can be defined and reasoned about
  directly;
- the filesystem is explicit state: the sources file and the backup path
  are fields of `FsState`; the backup entry distinguishes a regular file
  from a dangling symlink because the code checks existence with
  `symlink_metadata` (non-following);
- the symlink repoint is a sequence of fallible operations run against a
  failure oracle giving the index of the first operation that fails, so
  that error propagation and intermediate visible states can be stated.
-/

namespace Tfr

/-- `const SAMPLES: usize = 3;` in main.rs. -/
def SAMPLES : Nat := 3

/-- The `Mirror` struct of main.rs. -/
structure Mirror where
  path : String
  name : String
  base_url : String
  probe_url : String
deriving DecidableEq

/-- The `BenchResult` struct of main.rs. -/
structure BenchResult where
  path : String
  name : String
  base_url : String
  avg_latency : Nat
  jitter : Nat
deriving DecidableEq

/-- The per-mirror benchmark task spawned in `main` (main.rs lines
144-166).  The task draws `SAMPLES` probe outcomes (`samples`; `none` is a
failed or timed-out probe), pushes the successful latencies
(`samples.filterMap id`), and builds a `BenchResult` only when
`latencies.len() == SAMPLES`; `avg = sum / SAMPLES` and
`jitter = max - min`. -/
def benchTask (m : Mirror) (samples : List (Option Nat)) : Option BenchResult :=
  if (samples.filterMap id).length = SAMPLES then
    match (samples.filterMap id).max?, (samples.filterMap id).min? with
    | some mx, some mn =>
        some ⟨m.path, m.name, m.base_url, (samples.filterMap id).sum / SAMPLES, mx - mn⟩
    | _, _ => none
  else
    none

/-- The comparator passed to `results.sort_unstable_by` in main.rs:
`a.avg_latency.cmp(&b.avg_latency).then(a.jitter.cmp(&b.jitter))`. -/
def rankCmp (a b : BenchResult) : Ordering :=
  (compare a.avg_latency b.avg_latency).then (compare a.jitter b.jitter)

/-- The non-strict order induced by `rankCmp`: a sort by `rankCmp` leaves
consecutive elements with `rankCmp a b ≠ gt`. -/
def rankLE (a b : BenchResult) : Bool :=
  !(rankCmp a b == Ordering.gt)

/-- The sorting step of main.rs lines 177-181.  `sort_unstable_by`
guarantees exactly a permutation of the input sorted according to the
comparator; `mergeSort` with `rankLE` realises that contract (the order of
elements that compare equal is not part of the contract). -/
def sortResults (rs : List BenchResult) : List BenchResult :=
  rs.mergeSort rankLE

theorem rankLE_iff (a b : BenchResult) :
    rankLE a b = true ↔
      (a.avg_latency < b.avg_latency ∨
        (a.avg_latency = b.avg_latency ∧ a.jitter ≤ b.jitter)) := by
  unfold rankLE rankCmp
  rcases Nat.lt_trichotomy a.avg_latency b.avg_latency with h | h | h
  · rw [Nat.compare_eq_lt.2 h]
    exact iff_of_true rfl (Or.inl h)
  · rw [Nat.compare_eq_eq.2 h]
    rcases Nat.lt_trichotomy a.jitter b.jitter with hj | hj | hj
    · rw [Nat.compare_eq_lt.2 hj]
      exact iff_of_true rfl (Or.inr ⟨h, Nat.le_of_lt hj⟩)
    · rw [Nat.compare_eq_eq.2 hj]
      exact iff_of_true rfl (Or.inr ⟨h, Nat.le_of_eq hj⟩)
    · rw [Nat.compare_eq_gt.2 hj]
      constructor
      · intro hfalse
        exact absurd hfalse (by decide)
      · rintro (hlt | ⟨heq, hle⟩)
        · omega
        · omega
  · rw [Nat.compare_eq_gt.2 h]
    have e : Ordering.gt.then (compare a.jitter b.jitter) = Ordering.gt := rfl
    rw [e]
    constructor
    · intro hfalse
      exact absurd hfalse (by decide)
    · rintro (hlt | ⟨heq, hle⟩)
      · omega
      · omega

theorem rankLE_refl (a : BenchResult) : rankLE a a = true :=
  (rankLE_iff a a).2 (Or.inr ⟨rfl, Nat.le_refl _⟩)

theorem rankLE_trans (a b c : BenchResult)
    (hab : rankLE a b = true) (hbc : rankLE b c = true) : rankLE a c = true := by
  rw [rankLE_iff] at hab hbc ⊢
  rcases hab with h1 | ⟨h1, h2⟩ <;> rcases hbc with h3 | ⟨h3, h4⟩
  · exact Or.inl (by omega)
  · exact Or.inl (by omega)
  · exact Or.inl (by omega)
  · exact Or.inr ⟨by omega, by omega⟩

theorem rankLE_total (a b : BenchResult) : (rankLE a b || rankLE b a) = true := by
  rw [Bool.or_eq_true, rankLE_iff, rankLE_iff]
  rcases Nat.lt_trichotomy a.avg_latency b.avg_latency with h | h | h
  · exact Or.inl (Or.inl h)
  · rcases Nat.le_total a.jitter b.jitter with hj | hj
    · exact Or.inl (Or.inr ⟨h, hj⟩)
    · exact Or.inr (Or.inr ⟨h.symm, hj⟩)
  · exact Or.inr (Or.inl h)

/-- Length of `filterMap id` equals the length of the input list of
options exactly when every element is `some`. -/
theorem length_filterMap_id_eq_iff {α : Type} (l : List (Option α)) :
    (l.filterMap id).length = l.length ↔ ∀ s ∈ l, s.isSome = true := by
  induction l with
  | nil => simp
  | cons hd tl ih =>
    cases hd with
    | none =>
      have hle := List.length_filterMap_le (id : Option α → Option α) tl
      have e : List.filterMap id (none :: tl) = List.filterMap id tl := by
        simp
      rw [e]
      simp only [List.length_cons, List.mem_cons]
      constructor
      · intro h
        exact absurd h (by omega)
      · intro h
        have hn := h none (Or.inl rfl)
        simp at hn
    | some a =>
      have e : List.filterMap id (some a :: tl) = a :: List.filterMap id tl := by
        simp
      rw [e]
      simp only [List.length_cons, List.mem_cons]
      constructor
      · intro h s hs
        rcases hs with hs | hs
        · subst hs; rfl
        · exact (ih.1 (by omega)) s hs
      · intro h
        have h2 := ih.2 (fun s hs => h s (Or.inr hs))
        omega

theorem benchTask_isSome_iff (m : Mirror) (samples : List (Option Nat)) :
    (benchTask m samples).isSome = true ↔
      (samples.filterMap id).length = SAMPLES := by
  unfold benchTask
  constructor
  · intro h
    by_contra hc
    rw [if_neg hc] at h
    simp at h
  · intro hc
    rw [if_pos hc]
    rcases hl : samples.filterMap id with _ | ⟨a, t⟩
    · rw [hl] at hc
      simp [SAMPLES] at hc
    · rw [List.max?_cons, List.min?_cons]
      rfl

/-- C1: drawing `SAMPLES` probe outcomes for a mirror, the benchmark task
produces a `BenchResult` exactly when every outcome succeeded; a mirror
with a failed or timed-out sample contributes no result, so no average is
ever taken over a strict subset of the samples. -/
theorem benchResult_iff_all_samples_succeed (m : Mirror)
    (samples : List (Option Nat)) (hlen : samples.length = SAMPLES) :
    (benchTask m samples).isSome = true ↔ ∀ s ∈ samples, s.isSome = true := by
  rw [benchTask_isSome_iff, ← hlen]
  exact length_filterMap_id_eq_iff samples

/-- Witness for C1: a concrete sample list with one timeout. -/
theorem benchResult_iff_all_samples_succeed_witness :
    ([some 90, none, some 95] : List (Option Nat)).length = SAMPLES ∧
      ((benchTask (⟨"b", "B", "u", "p"⟩ : Mirror) [some 90, none, some 95]).isSome = true ↔
        ∀ s ∈ ([some 90, none, some 95] : List (Option Nat)), s.isSome = true) :=
  ⟨by decide,
    benchResult_iff_all_samples_succeed (⟨"b", "B", "u", "p"⟩ : Mirror) _ (by decide)⟩

/-- C2: when all `SAMPLES` samples of a mirror succeed, the produced
result has `avg_latency = sum / SAMPLES` (the truncating nanosecond
division that Rust `Duration` division performs) and
`jitter = max - min` over the measured durations. -/
theorem benchResult_avg_jitter (m : Mirror) (ls : List Nat)
    (hlen : ls.length = SAMPLES) (mx mn : Nat)
    (hmx : ls.max? = some mx) (hmn : ls.min? = some mn) :
    benchTask m (ls.map some) =
      some ⟨m.path, m.name, m.base_url, ls.sum / SAMPLES, mx - mn⟩ := by
  have hfm : (ls.map some).filterMap id = ls := by
    simp
  unfold benchTask
  rw [hfm, if_pos hlen, hmx, hmn]

/-- Witness for C2 at the spec scenario (samples 100, 110, 105:
average 105, jitter 10). -/
theorem benchResult_avg_jitter_witness :
    benchTask (⟨"a", "A", "u", "p"⟩ : Mirror) ([100, 110, 105].map some) =
      some ⟨"a", "A", "u", 105, 10⟩ := by
  have h := benchResult_avg_jitter (⟨"a", "A", "u", "p"⟩ : Mirror) [100, 110, 105]
    (by decide) 110 100 (by decide) (by decide)
  simpa using h

/-- C3: sorting the aggregated results gives a permutation of the
collection ordered by ascending average latency with ascending jitter as
tie-break, and the winner taken from the front is a minimum of the
collection in the ranking order. -/
theorem sortResults_sorted_and_head_min (rs : List BenchResult) (hne : rs ≠ []) :
    (sortResults rs).Perm rs ∧
      (sortResults rs).Pairwise (fun a b => rankLE a b = true) ∧
      ∃ w, (sortResults rs).head? = some w ∧ w ∈ rs ∧
        ∀ r ∈ rs, rankLE w r = true := by
  have hperm : (sortResults rs).Perm rs := List.mergeSort_perm rs rankLE
  have hpair : (sortResults rs).Pairwise (fun a b => rankLE a b = true) :=
    List.sorted_mergeSort (fun a b c => rankLE_trans a b c)
      (fun a b => rankLE_total a b) rs
  refine ⟨hperm, hpair, ?_⟩
  rcases hs : sortResults rs with _ | ⟨w, t⟩
  · rw [hs] at hperm
    have hlen := hperm.length_eq
    simp only [List.length_nil] at hlen
    exact absurd (List.length_eq_zero.1 hlen.symm) hne
  · rw [hs] at hperm hpair
    refine ⟨w, rfl, hperm.subset (List.mem_cons_self w t), ?_⟩
    intro r hr
    have hr2 : r ∈ w :: t := hperm.symm.subset hr
    rcases List.mem_cons.1 hr2 with hw | ht
    · subst hw
      exact rankLE_refl r
    · exact List.rel_of_pairwise_cons hpair ht

/-- Witness for C3 at the spec scenario results (mirror A: average 105,
jitter 10; mirror C: average 81, jitter 2). -/
theorem sortResults_sorted_and_head_min_witness :
    ([⟨"a", "A", "ua", 105, 10⟩, ⟨"c", "C", "uc", 81, 2⟩] : List BenchResult) ≠ [] ∧
      ∃ w, (sortResults [⟨"a", "A", "ua", 105, 10⟩, ⟨"c", "C", "uc", 81, 2⟩]).head? = some w ∧
        w ∈ ([⟨"a", "A", "ua", 105, 10⟩, ⟨"c", "C", "uc", 81, 2⟩] : List BenchResult) ∧
        ∀ r ∈ ([⟨"a", "A", "ua", 105, 10⟩, ⟨"c", "C", "uc", 81, 2⟩] : List BenchResult),
          rankLE w r = true :=
  ⟨by decide,
    (sortResults_sorted_and_head_min
      [⟨"a", "A", "ua", 105, 10⟩, ⟨"c", "C", "uc", 81, 2⟩] (by decide)).2.2⟩

/-- Splitting a content at LF characters, like Rust `split('\n')`: the
segments between LFs, including an empty segment for a leading, trailing
or doubled LF.  Never returns the empty list. -/
def splitLF : List Char → List (List Char)
  | [] => [[]]
  | c :: cs =>
    if c = '\n' then [] :: splitLF cs
    else
      match splitLF cs with
      | [] => [[c]]
      | p :: ps => (c :: p) :: ps

/-- Removing one trailing carriage return, as Rust `lines` does on every
segment that was terminated by an LF. -/
def stripCR (l : List Char) : List Char :=
  if l.getLast? = some '\r' then l.dropLast else l

/-- Rust `str::lines` on the segments produced by `splitLF`: every
LF-terminated segment loses one trailing CR; a final empty segment (from a
trailing LF, or empty input) yields no line; a final non-empty segment is
kept verbatim (a CR there has no following LF, so Rust keeps it). -/
def rustLinesAux : List (List Char) → List (List Char)
  | [] => []
  | [last] => if last = [] then [] else [last]
  | p :: q :: rest => stripCR p :: rustLinesAux (q :: rest)

/-- The lines of a content, with the semantics of Rust `str::lines`. -/
def rustLines (s : List Char) : List (List Char) :=
  rustLinesAux (splitLF s)

/-- Rust `str::contains(pat)`: some contiguous run of characters equals
`pat`. -/
def isInfixOf (pat : List Char) : List Char → Bool
  | [] => pat.isEmpty
  | c :: cs => pat.isPrefixOf (c :: cs) || isInfixOf pat cs

/-- The line test of `update_sources_list` (main.rs lines 78-83): the
line starts with `deb ` and names one of the recognised mirror
indicators. -/
def isMainRepoLine (line : List Char) : Bool :=
  "deb ".toList.isPrefixOf line &&
    (isInfixOf "termux-main".toList line ||
      isInfixOf "packages-cf.termux.dev".toList line ||
      isInfixOf "packages.termux.dev".toList line)

/-- `format!("deb {} stable main", base_url)` (main.rs line 71). -/
def newDebLine (base_url : List Char) : List Char :=
  "deb ".toList ++ base_url ++ " stable main".toList

/-- One step of the per-line map in `update_sources_list`: a matching
line becomes the new directive line, any other line passes through. -/
def replaceLine (base_url line : List Char) : List Char :=
  if isMainRepoLine line then newDebLine base_url else line

/-- `Vec::join("\n")` over the processed lines. -/
def joinLF : List (List Char) → List Char
  | [] => []
  | [l] => l
  | l :: q :: rest => l ++ '\n' :: joinLF (q :: rest)

/-- A filesystem entry at the backup path as seen by the non-following
`symlink_metadata` check: a regular file with known content, or a dangling
symlink, which still has metadata and hence still counts as existing. -/
inductive Entry where
  | file : List Char → Entry
  | brokenSymlink : Entry
deriving DecidableEq

/-- The filesystem state touched by `update_sources_list`: the sources
file content (`none` when the file is absent) and the backup path. -/
structure FsState where
  sources : Option (List Char)
  backup : Option Entry
deriving DecidableEq

/-- Outcome of one `update_sources_list` call: the resulting filesystem
state and whether a temporary file was created (the staged write of the
rewritten contents that is renamed over the sources file). -/
structure CommitOutcome where
  st : FsState
  tmpWritten : Bool
deriving DecidableEq

/-- `update_sources_list` (main.rs lines 57-105) on the happy path (no
I/O failure): read the sources file (absent: success without writing);
create the backup with the current contents when the non-following
existence check finds nothing; replace every line accepted by
`isMainRepoLine`; when no line matched leave the file untouched with no
temporary file, otherwise stage the lines joined by LF plus a trailing LF
and rename over the sources path. -/
def update_sources_list (base_url : List Char) (st : FsState) : CommitOutcome :=
  match st.sources with
  | none => ⟨st, false⟩
  | some original =>
    let backup1 : Option Entry :=
      match st.backup with
      | none => some (Entry.file original)
      | some e => some e
    let ls := rustLines original
    if ls.any isMainRepoLine then
      ⟨⟨some (joinLF (ls.map (replaceLine base_url)) ++ ['\n']), backup1⟩, true⟩
    else
      ⟨⟨some original, backup1⟩, false⟩

/-- C4: with the sources file present, the backup is created exactly when
the non-following existence check finds no entry at the backup path (a
dangling symlink counts as existing); a created backup holds the current
sources bytes verbatim; and an existing backup entry, whatever it is, is
never overwritten or modified by a run. -/
theorem backup_created_once_never_touched (u : List Char) (st : FsState) :
    (∀ orig, st.sources = some orig → st.backup = none →
        (update_sources_list u st).st.backup = some (Entry.file orig)) ∧
      (∀ e, st.backup = some e →
        (update_sources_list u st).st.backup = some e) := by
  constructor
  · intro orig hsrc hb
    simp only [update_sources_list, hsrc, hb]
    split <;> rfl
  · intro e hb
    rcases hsrc : st.sources with _ | orig
    · simp only [update_sources_list, hsrc]
      exact hb
    · simp only [update_sources_list, hsrc, hb]
      split <;> rfl

/-- Witness for C4: a fresh state gets a backup of the current bytes; a
dangling-symlink backup entry survives a run untouched. -/
theorem backup_created_once_never_touched_witness :
    (update_sources_list "u".toList ⟨some "a\n".toList, none⟩).st.backup =
        some (Entry.file "a\n".toList) ∧
      (update_sources_list "u".toList
          ⟨some "a\n".toList, some Entry.brokenSymlink⟩).st.backup =
        some Entry.brokenSymlink :=
  ⟨(backup_created_once_never_touched "u".toList ⟨some "a\n".toList, none⟩).1
      "a\n".toList rfl rfl,
    (backup_created_once_never_touched "u".toList
      ⟨some "a\n".toList, some Entry.brokenSymlink⟩).2 Entry.brokenSymlink rfl⟩

/-- C5: when no line of the sources file both starts with the `deb `
directive keyword and names a recognised mirror indicator, a commit
attempt leaves the sources bytes unchanged and produces no temporary
file (and the call, which in this model cannot fail, succeeds). -/
theorem no_match_leaves_file_untouched (u : List Char) (st : FsState)
    (orig : List Char) (hsrc : st.sources = some orig)
    (hnone : ∀ l ∈ rustLines orig, isMainRepoLine l = false) :
    (update_sources_list u st).st.sources = some orig ∧
      (update_sources_list u st).tmpWritten = false := by
  have hany : (rustLines orig).any isMainRepoLine = false := by
    rw [List.any_eq_false]
    intro l hl
    simp [hnone l hl]
  simp only [update_sources_list, hsrc, hany]
  exact ⟨rfl, rfl⟩

/-- Witness for C5: a sources file whose directive line points at an
unrecognised mirror is left byte-identical, with no temp file. -/
theorem no_match_leaves_file_untouched_witness :
    (update_sources_list "https://m/x".toList
        ⟨some "deb https://example.org/other stable main\n# c\n".toList, none⟩).st.sources =
      some "deb https://example.org/other stable main\n# c\n".toList ∧
    (update_sources_list "https://m/x".toList
        ⟨some "deb https://example.org/other stable main\n# c\n".toList, none⟩).tmpWritten =
      false :=
  no_match_leaves_file_untouched "https://m/x".toList
    ⟨some "deb https://example.org/other stable main\n# c\n".toList, none⟩
    "deb https://example.org/other stable main\n# c\n".toList rfl (by decide)

/-- C10: when the sources file exists, nothing exists at the backup path
and no line matches, a commit attempt still creates the backup while
leaving the sources file untouched: the backup can be created on a run
that performs no rewrite. -/
theorem backup_without_rewrite (u : List Char) (st : FsState)
    (orig : List Char) (hsrc : st.sources = some orig) (hb : st.backup = none)
    (hnone : ∀ l ∈ rustLines orig, isMainRepoLine l = false) :
    update_sources_list u st =
      ⟨⟨some orig, some (Entry.file orig)⟩, false⟩ := by
  have hany : (rustLines orig).any isMainRepoLine = false := by
    rw [List.any_eq_false]
    intro l hl
    simp [hnone l hl]
  simp only [update_sources_list, hsrc, hb, hany]
  rfl

/-- Witness for C10: no line matches, yet the backup appears. -/
theorem backup_without_rewrite_witness :
    update_sources_list "https://m/x".toList
        ⟨some "# only a comment\n".toList, none⟩ =
      ⟨⟨some "# only a comment\n".toList,
        some (Entry.file "# only a comment\n".toList)⟩, false⟩ :=
  backup_without_rewrite "https://m/x".toList
    ⟨some "# only a comment\n".toList, none⟩
    "# only a comment\n".toList rfl rfl (by decide)

/-- C6: a rewrite maps the sources file, line by line, to `deb <base_url>
stable main` on exactly the lines that start with `deb ` and name a
recognised indicator, passing every other line through unchanged in its
original position, and writes the processed lines joined by LF with a
trailing LF. -/
theorem rewrite_replaces_exactly_matching_lines (u : List Char) (st : FsState)
    (orig : List Char) (hsrc : st.sources = some orig)
    (hmatch : (rustLines orig).any isMainRepoLine = true) :
    ∃ outLines,
      (update_sources_list u st).st.sources = some (joinLF outLines ++ ['\n']) ∧
      ∀ i : Nat, outLines[i]? =
        (rustLines orig)[i]?.map
          (fun l => if isMainRepoLine l = true then newDebLine u else l) := by
  refine ⟨(rustLines orig).map (replaceLine u), ?_, ?_⟩
  · simp only [update_sources_list, hsrc, hmatch]
    rfl
  · intro i
    rw [List.getElem?_map]
    rfl

/-- Witness for C6: a matching directive line between two non-matching
lines is replaced in place; the others survive byte-for-byte. -/
theorem rewrite_replaces_exactly_matching_lines_witness :
    ∃ outLines,
      (update_sources_list "https://m/tm".toList
          ⟨some "# c\ndeb x packages.termux.dev y\nkeep me\n".toList, none⟩).st.sources =
        some (joinLF outLines ++ ['\n']) ∧
      ∀ i : Nat, outLines[i]? =
        (rustLines "# c\ndeb x packages.termux.dev y\nkeep me\n".toList)[i]?.map
          (fun l => if isMainRepoLine l = true then newDebLine "https://m/tm".toList else l) :=
  rewrite_replaces_exactly_matching_lines "https://m/tm".toList
    ⟨some "# c\ndeb x packages.termux.dev y\nkeep me\n".toList, none⟩
    "# c\ndeb x packages.termux.dev y\nkeep me\n".toList rfl (by decide)

theorem mem_splitLF_subset {s : List Char} :
    ∀ {l : List Char}, l ∈ splitLF s → ∀ c ∈ l, c ∈ s := by
  induction s with
  | nil =>
    intro l hl c hc
    simp only [splitLF, List.mem_singleton] at hl
    subst hl
    exact absurd hc (List.not_mem_nil c)
  | cons a cs ih =>
    intro l hl c hc
    simp only [splitLF] at hl
    by_cases ha : a = '\n'
    · rw [if_pos ha] at hl
      rcases List.mem_cons.1 hl with hnil | htl
      · subst hnil
        exact absurd hc (List.not_mem_nil c)
      · exact List.mem_cons_of_mem a (ih htl c hc)
    · rw [if_neg ha] at hl
      rcases hsp : splitLF cs with _ | ⟨p, ps⟩
      · rw [hsp] at hl
        simp only [List.mem_singleton] at hl
        subst hl
        rw [List.mem_singleton.1 hc]
        exact List.mem_cons_self a cs
      · rw [hsp] at hl
        rcases List.mem_cons.1 hl with hh | htl
        · subst hh
          rcases List.mem_cons.1 hc with hca | hcp
          · rw [hca]
            exact List.mem_cons_self a cs
          · have hp : p ∈ splitLF cs := by
              rw [hsp]
              exact List.mem_cons_self p ps
            exact List.mem_cons_of_mem a (ih hp c hcp)
        · have hm : l ∈ splitLF cs := by
            rw [hsp]
            exact List.mem_cons_of_mem p htl
          exact List.mem_cons_of_mem a (ih hm c hc)

theorem lf_not_mem_splitLF {s : List Char} :
    ∀ {l : List Char}, l ∈ splitLF s → '\n' ∉ l := by
  induction s with
  | nil =>
    intro l hl
    simp only [splitLF, List.mem_singleton] at hl
    subst hl
    exact List.not_mem_nil _
  | cons a cs ih =>
    intro l hl
    simp only [splitLF] at hl
    by_cases ha : a = '\n'
    · rw [if_pos ha] at hl
      rcases List.mem_cons.1 hl with hnil | htl
      · subst hnil
        exact List.not_mem_nil _
      · exact ih htl
    · rw [if_neg ha] at hl
      rcases hsp : splitLF cs with _ | ⟨p, ps⟩
      · rw [hsp] at hl
        simp only [List.mem_singleton] at hl
        subst hl
        intro hc
        exact ha (List.mem_singleton.1 hc).symm
      · rw [hsp] at hl
        rcases List.mem_cons.1 hl with hh | htl
        · subst hh
          intro hc
          rcases List.mem_cons.1 hc with hca | hcp
          · exact ha hca.symm
          · have hp : p ∈ splitLF cs := by
              rw [hsp]
              exact List.mem_cons_self p ps
            exact ih hp hcp
        · have hm : l ∈ splitLF cs := by
            rw [hsp]
            exact List.mem_cons_of_mem p htl
          exact ih hm

theorem mem_rustLinesAux {l : List Char} :
    ∀ {P : List (List Char)}, l ∈ rustLinesAux P →
      ∃ p ∈ P, l = stripCR p ∨ l = p := by
  intro P
  induction P with
  | nil =>
    intro hl
    simp [rustLinesAux] at hl
  | cons p rest ih =>
    intro hl
    rcases rest with _ | ⟨q, rest2⟩
    · simp only [rustLinesAux] at hl
      by_cases hp : p = []
      · rw [if_pos hp] at hl
        exact absurd hl (List.not_mem_nil l)
      · rw [if_neg hp] at hl
        rw [List.mem_singleton.1 hl]
        exact ⟨p, List.mem_cons_self p [], Or.inr rfl⟩
    · simp only [rustLinesAux] at hl
      rcases List.mem_cons.1 hl with hh | htl
      · exact ⟨p, List.mem_cons_self p (q :: rest2), Or.inl hh⟩
      · obtain ⟨p2, hp2, hor⟩ := ih htl
        exact ⟨p2, List.mem_cons_of_mem p hp2, hor⟩

theorem stripCR_subset (p : List Char) : ∀ c ∈ stripCR p, c ∈ p := by
  intro c hc
  unfold stripCR at hc
  by_cases h : p.getLast? = some '\r'
  · rw [if_pos h] at hc
    exact List.dropLast_subset p hc
  · rw [if_neg h] at hc
    exact hc

/-- Every line produced by `rustLines` is LF-free, and when the content
has no carriage return the line does not end in one either. -/
theorem rustLines_clean {orig l : List Char} (hl : l ∈ rustLines orig) :
    '\n' ∉ l ∧ ('\r' ∉ orig → l.getLast? ≠ some '\r') := by
  obtain ⟨p, hp, hor⟩ := mem_rustLinesAux hl
  have hsubp : ∀ c ∈ l, c ∈ p := by
    intro c hc
    rcases hor with h | h
    · rw [h] at hc
      exact stripCR_subset p c hc
    · rw [h] at hc
      exact hc
  constructor
  · intro hc
    exact lf_not_mem_splitLF hp (hsubp _ hc)
  · intro hcr hlast
    obtain ⟨ys, hys⟩ := List.getLast?_eq_some_iff.1 hlast
    have hmem : '\r' ∈ l := by
      rw [hys]
      exact List.mem_append_right ys (List.mem_singleton.2 rfl)
    exact hcr (mem_splitLF_subset hp _ (hsubp _ hmem))

theorem newDebLine_clean (u : List Char) (hu : '\n' ∉ u) :
    '\n' ∉ newDebLine u ∧ (newDebLine u).getLast? ≠ some '\r' := by
  constructor
  · intro hmem
    unfold newDebLine at hmem
    rcases List.mem_append.1 hmem with h | h
    · rcases List.mem_append.1 h with h2 | h2
      · exact absurd h2 (by decide)
      · exact hu h2
    · exact absurd h (by decide)
  · unfold newDebLine
    have hB : (" stable main".toList : List Char).getLast? = some 'n' := by decide
    rw [List.getLast?_append, hB]
    simp

theorem replaceLine_clean (u l : List Char) (hu : '\n' ∉ u)
    (hlf : '\n' ∉ l) (hcr : l.getLast? ≠ some '\r') :
    '\n' ∉ replaceLine u l ∧ (replaceLine u l).getLast? ≠ some '\r' := by
  unfold replaceLine
  split
  · exact newDebLine_clean u hu
  · exact ⟨hlf, hcr⟩

theorem replaceLine_idem (u l : List Char) :
    replaceLine u (replaceLine u l) = replaceLine u l := by
  by_cases h : isMainRepoLine l = true
  · simp [replaceLine, h]
  · simp [replaceLine, h]

theorem splitLF_append_lf (l : List Char) (rest : List Char) (hl : '\n' ∉ l) :
    splitLF (l ++ '\n' :: rest) = l :: splitLF rest := by
  induction l with
  | nil =>
    rw [List.nil_append]
    simp [splitLF]
  | cons c l2 ih =>
    have hc : c ≠ '\n' := fun h => hl (h ▸ List.mem_cons_self c l2)
    have hl2 : '\n' ∉ l2 := fun h => hl (List.mem_cons_of_mem c h)
    rw [List.cons_append]
    simp only [splitLF, if_neg hc, ih hl2]

theorem splitLF_joinLF (L : List (List Char)) (hne : L ≠ [])
    (hlf : ∀ l ∈ L, '\n' ∉ l) :
    splitLF (joinLF L ++ ['\n']) = L ++ [[]] := by
  induction L with
  | nil => exact absurd rfl hne
  | cons l rest ih =>
    rcases rest with _ | ⟨q, rest2⟩
    · exact splitLF_append_lf l [] (hlf l (List.mem_cons_self l []))
    · rw [show joinLF (l :: q :: rest2) = l ++ '\n' :: joinLF (q :: rest2) from rfl]
      rw [List.append_assoc, List.cons_append]
      rw [splitLF_append_lf l _ (hlf l (List.mem_cons_self l (q :: rest2)))]
      rw [ih (by simp) (fun x hx => hlf x (List.mem_cons_of_mem l hx))]
      rfl

theorem rustLinesAux_append_nil (L : List (List Char)) :
    rustLinesAux (L ++ [[]]) = L.map stripCR := by
  induction L with
  | nil => rfl
  | cons l rest ih =>
    rcases rest with _ | ⟨q, rest2⟩
    · rfl
    · rw [show ((l :: q :: rest2) ++ [[]] : List (List Char)) =
          l :: ((q :: rest2) ++ [[]]) from rfl]
      rw [show rustLinesAux (l :: ((q :: rest2) ++ [[]])) =
          stripCR l :: rustLinesAux ((q :: rest2) ++ [[]]) from rfl]
      rw [ih]
      rfl

/-- Re-parsing a written file: joining LF-free lines that do not end in a
carriage return with LF plus a trailing LF and splitting again restores
the lines. -/
theorem rustLines_joinLF (L : List (List Char)) (hne : L ≠ [])
    (hlf : ∀ l ∈ L, '\n' ∉ l) (hcr : ∀ l ∈ L, l.getLast? ≠ some '\r') :
    rustLines (joinLF L ++ ['\n']) = L := by
  unfold rustLines
  rw [splitLF_joinLF L hne hlf, rustLinesAux_append_nil]
  have hmap : ∀ (M : List (List Char)),
      (∀ l ∈ M, l.getLast? ≠ some '\r') → M.map stripCR = M := by
    intro M
    induction M with
    | nil =>
      intro _
      rfl
    | cons a t iht =>
      intro hM
      rw [List.map_cons, iht (fun l hl => hM l (List.mem_cons_of_mem a hl))]
      rw [show stripCR a = a from by
        unfold stripCR
        rw [if_neg (hM a (List.mem_cons_self a t))]]
  exact hmap L hcr

/-- With the sources file absent, a commit leaves no sources file. -/
theorem update_sources_content_none (u : List Char) (s : FsState)
    (h : s.sources = none) :
    (update_sources_list u s).st.sources = none := by
  simp only [update_sources_list, h]

/-- With a matching line present, a commit writes the processed lines
joined by LF plus a trailing LF. -/
theorem update_sources_content_rewrite (u : List Char) (s : FsState)
    (orig : List Char) (h : s.sources = some orig)
    (hrep : (rustLines orig).any isMainRepoLine = true) :
    (update_sources_list u s).st.sources =
      some (joinLF ((rustLines orig).map (replaceLine u)) ++ ['\n']) := by
  simp only [update_sources_list, h, hrep]
  rfl

/-- With no matching line, a commit keeps the sources bytes. -/
theorem update_sources_content_skip (u : List Char) (s : FsState)
    (orig : List Char) (h : s.sources = some orig)
    (hrep : (rustLines orig).any isMainRepoLine = false) :
    (update_sources_list u s).st.sources = some orig := by
  simp only [update_sources_list, h, hrep]
  rfl

/-- Counterexample to C7 as stated: with initial sources content
"deb termux-main" LF "x" CR (the final line keeps its carriage return
because no LF follows it) and winning base URL
"https://m/termux-main", the first run writes "... stable main" LF "x"
CR LF; the second run, reading that file, strips the CR that now sits
before the LF and rewrites, so the bytes after the second run differ from
the bytes after the first. -/
theorem rewrite_not_idempotent_counterexample :
    ((update_sources_list "https://m/termux-main".toList
        (update_sources_list "https://m/termux-main".toList
          ⟨some "deb termux-main\nx\r".toList, none⟩).st).st).sources ≠
      ((update_sources_list "https://m/termux-main".toList
        ⟨some "deb termux-main\nx\r".toList, none⟩).st).sources := by
  decide

/-- C7 amended: the sources-file rewrite is idempotent for every initial
content that contains no carriage return and every winning base URL that
contains no line feed: a second commit with the same winner leaves the
sources file byte-identical to its content after the first commit.  (The
counterexample shows a stray CR, whose treatment by the line iterator
depends on whether an LF follows it, breaks bytewise idempotence.) -/
theorem rewrite_idempotent (u : List Char) (st : FsState)
    (hcr : ∀ orig, st.sources = some orig → '\r' ∉ orig)
    (hu : '\n' ∉ u) :
    (update_sources_list u (update_sources_list u st).st).st.sources =
      (update_sources_list u st).st.sources := by
  rcases hsrc : st.sources with _ | orig
  · have h1 := update_sources_content_none u st hsrc
    rw [update_sources_content_none u (update_sources_list u st).st h1, h1]
  · have hcro : '\r' ∉ orig := hcr orig hsrc
    by_cases hrep : (rustLines orig).any isMainRepoLine = true
    · have h1 := update_sources_content_rewrite u st orig hsrc hrep
      obtain ⟨x, hx, _⟩ := List.any_eq_true.1 hrep
      have hne : rustLines orig ≠ [] := List.ne_nil_of_mem hx
      have hclean : ∀ l ∈ (rustLines orig).map (replaceLine u),
          '\n' ∉ l ∧ l.getLast? ≠ some '\r' := by
        intro l hl
        obtain ⟨l0, hl0, rfl⟩ := List.mem_map.1 hl
        obtain ⟨hlf0, hcr0⟩ := rustLines_clean hl0
        exact replaceLine_clean u l0 hu hlf0 (hcr0 hcro)
      have hre : rustLines (joinLF ((rustLines orig).map (replaceLine u)) ++ ['\n']) =
          (rustLines orig).map (replaceLine u) := by
        apply rustLines_joinLF
        · simp [hne]
        · exact fun l hl => (hclean l hl).1
        · exact fun l hl => (hclean l hl).2
      have hidem : (rustLines orig).map (replaceLine u) =
          ((rustLines orig).map (replaceLine u)).map (replaceLine u) := by
        rw [List.map_map]
        have hcomp : (replaceLine u ∘ replaceLine u) = replaceLine u := by
          funext l
          exact replaceLine_idem u l
        rw [hcomp]
      by_cases hrep2 :
          ((rustLines orig).map (replaceLine u)).any isMainRepoLine = true
      · have h2 := update_sources_content_rewrite u (update_sources_list u st).st
          (joinLF ((rustLines orig).map (replaceLine u)) ++ ['\n']) h1
          (by rw [hre]; exact hrep2)
        rw [h2, h1, hre, ← hidem]
      · have hrep2f :
            ((rustLines orig).map (replaceLine u)).any isMainRepoLine = false := by
          cases h3 : ((rustLines orig).map (replaceLine u)).any isMainRepoLine
          · rfl
          · exact absurd h3 hrep2
        have h2 := update_sources_content_skip u (update_sources_list u st).st
          (joinLF ((rustLines orig).map (replaceLine u)) ++ ['\n']) h1
          (by rw [hre]; exact hrep2f)
        rw [h2, h1]
    · have hrepf : (rustLines orig).any isMainRepoLine = false := by
        cases h3 : (rustLines orig).any isMainRepoLine
        · rfl
        · exact absurd h3 hrep
      have h1 := update_sources_content_skip u st orig hsrc hrepf
      have h2 := update_sources_content_skip u (update_sources_list u st).st
        orig h1 hrepf
      rw [h2, h1]

/-- Witness for the amended C7: a CR-free sources file and an LF-free
base URL; the second run leaves the bytes of the first run in place. -/
theorem rewrite_idempotent_witness :
    (update_sources_list "https://m/tm".toList
        (update_sources_list "https://m/tm".toList
          ⟨some "deb termux-main\nkeep\n".toList, none⟩).st).st.sources =
      (update_sources_list "https://m/tm".toList
        ⟨some "deb termux-main\nkeep\n".toList, none⟩).st.sources :=
  rewrite_idempotent "https://m/tm".toList
    ⟨some "deb termux-main\nkeep\n".toList, none⟩
    (by
      intro orig h
      injection h with h2
      subst h2
      decide)
    (by decide)

/-- A symlink-repoint operation performed by `main` (main.rs lines
190-194) on the link path. -/
inductive LinkOp where
  | removeLink : LinkOp
  | createLink : String → LinkOp
deriving DecidableEq

/-- The operations `main` issues against the link path: when the
non-following metadata check finds an entry, remove it first; then create
the new symlink.  There is no staged swap: the removal is a separate
visible step. -/
def linkOps (link : Option String) (target : String) : List LinkOp :=
  match link with
  | some _ => [LinkOp.removeLink, LinkOp.createLink target]
  | none => [LinkOp.createLink target]

/-- Effect of one successful operation on the link path. -/
def applyLinkOp (link : Option String) : LinkOp → Option String
  | LinkOp.removeLink => none
  | LinkOp.createLink t => some t

/-- Running operations against a failure oracle: `failAt` is the index of
the first operation whose syscall fails; a failing operation leaves the
path as it is and the `?` operator propagates the error (`false`),
aborting the remaining operations. -/
def runLinkOps (link : Option String) : List LinkOp → Nat → Option String × Bool
  | [], _ => (link, true)
  | _ :: _, 0 => (link, false)
  | op :: ops, k + 1 => runLinkOps (applyLinkOp link op) ops k

/-- The symlink repoint of `main` with failure injection. -/
def repointLink (link : Option String) (target : String) (failAt : Nat) :
    Option String × Bool :=
  runLinkOps link (linkOps link target) failAt

/-- Counterexample to C8 as stated: when an old link exists and the
create fails right after the remove succeeded (failure index 1), the
error is reported but the link path is left absent: the old target is
gone and the new one was never installed - exactly the partial visible
state the claim says never remains. -/
theorem repoint_partial_state_counterexample :
    (repointLink (some "old") "new" 1).2 = false ∧
      (repointLink (some "old") "new" 1).1 ≠ some "old" ∧
      (repointLink (some "old") "new" 1).1 ≠ some "new" := by
  refine ⟨rfl, ?_, ?_⟩ <;> decide

/-- C8 amended: a failing operation makes the whole repoint report
failure, and the run installs the new target exactly when no operation
fails; the link path is never observed present-but-wrong (it is always
the original entry, absent, or the new target), but a failure after the
removal does leave it absent. -/
theorem repoint_propagates_and_never_wrong (link : Option String)
    (target : String) (failAt : Nat) :
    ((repointLink link target failAt).1 = link ∨
        (repointLink link target failAt).1 = none ∨
        (repointLink link target failAt).1 = some target) ∧
      (failAt < (linkOps link target).length →
        (repointLink link target failAt).2 = false) ∧
      ((linkOps link target).length ≤ failAt →
        repointLink link target failAt = (some target, true)) := by
  rcases link with _ | old
  · rcases failAt with _ | k
    · refine ⟨Or.inl rfl, fun _ => rfl, ?_⟩
      intro h
      simp [linkOps] at h
    · refine ⟨Or.inr (Or.inr rfl), ?_, fun _ => rfl⟩
      intro h
      simp [linkOps] at h
  · rcases failAt with _ | _ | k
    · refine ⟨Or.inl rfl, fun _ => rfl, ?_⟩
      intro h
      simp [linkOps] at h
    · refine ⟨Or.inr (Or.inl rfl), fun _ => rfl, ?_⟩
      intro h
      simp [linkOps] at h
    · refine ⟨Or.inr (Or.inr rfl), ?_, fun _ => rfl⟩
      intro h
      simp [linkOps] at h
      omega

/-- Witness for the amended C8: with an old link present, all operations
succeeding installs the new target; failing the very first operation
reports the failure. -/
theorem repoint_propagates_and_never_wrong_witness :
    repointLink (some "a") "b" 5 = (some "b", true) ∧
      (repointLink (some "a") "b" 0).2 = false :=
  ⟨(repoint_propagates_and_never_wrong (some "a") "b" 5).2.2 (by decide),
    (repoint_propagates_and_never_wrong (some "a") "b" 0).2.1 (by decide)⟩

end Tfr
